import Mathlib

/-!
Verification development for the elixir-context repository: a shallow
embedding of its index-store ingestion pipeline (scripts/ingest.js), the
entity extractor dedup stage (scripts/export.exs, Exporter v2), the watch
scheduler (the chokidar watcher), and the hybrid search engine (the MCP
server handleSearch together with scripts/ripgrep-search.js and
scripts/utils.js), with theorems settling the specification claims.

Machine integers do not occur: all line numbers, counts and scores are
small and the JavaScript sources use plain numbers, so Nat and Int are
exact models.
-/

namespace ElixirContext

/-- Insertion into a JavaScript Set, which keeps insertion order and
ignores an element that is already present. -/
def insertS (p : String) (l : List String) : List String :=
  if p ∈ l then l else l ++ [p]

/-- Accumulator form of first-occurrence deduplication. -/
def uniqAux {α : Type} [DecidableEq α] : List α → List α → List α
  | _, [] => []
  | seen, a :: t => if a ∈ seen then uniqAux seen t else a :: uniqAux (a :: seen) t

/-- Elixir Enum.uniq: keep the first occurrence of each element. -/
def uniq {α : Type} [DecidableEq α] (l : List α) : List α := uniqAux [] l

theorem mem_uniqAux {α : Type} [DecidableEq α] (x : α) :
    ∀ (l seen : List α), x ∈ uniqAux seen l ↔ x ∈ l ∧ x ∉ seen := by
  intro l
  induction l with
  | nil => intro seen; simp [uniqAux]
  | cons a t ih =>
    intro seen
    by_cases ha : a ∈ seen
    · rw [uniqAux, if_pos ha, ih]
      constructor
      · rintro ⟨hx, hns⟩; exact ⟨List.mem_cons_of_mem a hx, hns⟩
      · rintro ⟨hx, hns⟩
        rcases List.mem_cons.mp hx with rfl | hx
        · exact absurd ha hns
        · exact ⟨hx, hns⟩
    · rw [uniqAux, if_neg ha]
      constructor
      · intro hx
        rcases List.mem_cons.mp hx with rfl | hx
        · exact ⟨List.mem_cons_self _ _, ha⟩
        · rcases (ih (a :: seen)).mp hx with ⟨h1, h2⟩
          exact ⟨List.mem_cons_of_mem a h1, fun hc => h2 (List.mem_cons_of_mem a hc)⟩
      · rintro ⟨hx, hns⟩
        rcases List.mem_cons.mp hx with rfl | hx
        · exact List.mem_cons_self _ _
        · by_cases hxa : x = a
          · subst hxa; exact List.mem_cons_self _ _
          · refine List.mem_cons_of_mem a ((ih (a :: seen)).mpr ⟨hx, fun hc => ?_⟩)
            rcases List.mem_cons.mp hc with h | h
            · exact hxa h
            · exact hns h

theorem mem_uniq {α : Type} [DecidableEq α] {x : α} {l : List α} :
    x ∈ uniq l ↔ x ∈ l := by
  simp [uniq, mem_uniqAux]

theorem nodup_uniqAux {α : Type} [DecidableEq α] :
    ∀ (l seen : List α), (uniqAux seen l).Nodup := by
  intro l
  induction l with
  | nil => intro seen; simp [uniqAux]
  | cons a t ih =>
    intro seen
    by_cases ha : a ∈ seen
    · simpa [uniqAux, if_pos ha] using ih seen
    · simp only [uniqAux, if_neg ha, List.nodup_cons]
      refine ⟨fun hc => ?_, ih (a :: seen)⟩
      exact ((mem_uniqAux a t (a :: seen)).mp hc).2 (List.mem_cons_self a seen)

theorem nodup_uniq {α : Type} [DecidableEq α] (l : List α) : (uniq l).Nodup :=
  nodup_uniqAux l []

/-! ## Index Store (scripts/ingest.js)

The persisted store is three tables. The functions table has
PRIMARY KEY id, so INSERT OR REPLACE there is keyed on id. The edges
table has UNIQUE(src_id, dst_mfa, kind), so INSERT OR IGNORE skips an
existing triple. The functions_fts table is an fts5 virtual table with
columns id, module, lexical_text and no uniqueness constraint at all:
in SQLite the REPLACE conflict resolution of INSERT OR REPLACE fires
only on a constraint conflict, and an fts5 insert that does not name a
rowid never conflicts, so the statement behaves as a plain insert. -/

/-- One row of the functions table. -/
structure FuncRow where
  id : String
  module : String
  name : String
  arity : Nat
  kind : String
  path : String
  start_line : Nat
  end_line : Option Nat
  signature : Option String
  spec : Option String
  doc : Option String
  lexical_text : String
  struct_text : Option String
  deriving DecidableEq, Repr

/-- One row of the edges table. -/
structure EdgeRow where
  src_id : String
  dst_mfa : String
  kind : String
  deriving DecidableEq, Repr

/-- One row of the functions_fts full-text table. -/
structure FtsRow where
  id : String
  module : String
  lexical_text : String
  deriving DecidableEq, Repr

/-- The persisted store. schemaPresent records whether the three tables
exist (the incremental path probes the functions table for this). Row
order within a table is immaterial to every claim. -/
structure DB where
  schemaPresent : Bool
  functions : List FuncRow
  edges : List EdgeRow
  fts : List FtsRow
  deriving DecidableEq, Repr

def emptyDB : DB := ⟨false, [], [], []⟩

/-- A freshly created schema, as produced by the full-rebuild DDL. -/
def freshDB : DB := ⟨true, [], [], []⟩

/-- One entity record as parsed from a JSONL line. A record whose id
field is absent is represented with id = none: binding an undefined
value in better-sqlite3 throws, which is the missing-required-field
failure mode (other required columns behave the same way and are
modelled as always present). spec and doc are already
string-or-null here, matching the stringify normalisation. -/
structure RawRecord where
  id : Option String
  module : String
  name : String
  arity : Nat
  kind : Option String
  path : String
  start_line : Nat
  end_line : Option Nat
  signature : Option String
  spec : Option String
  doc : Option String
  lexical_text : String
  struct_text : Option String
  calls : List String
  deriving DecidableEq, Repr

/-- One line of the JSONL input: blank (skipped by the trim test),
unparseable JSON (JSON.parse throws on it), or a parsed record. -/
inductive Line where
  | blank : Line
  | malformed : Line
  | record : RawRecord → Line
  deriving DecidableEq, Repr

inductive IngestErr where
  | recordMalformed : IngestErr
  | insertFailed : IngestErr
  | schemaMissing : IngestErr
  deriving DecidableEq, Repr

/-- SELECT id FROM functions WHERE path = p. -/
def idsAtPath (db : DB) (p : String) : List String :=
  (db.functions.filter (fun f => f.path = p)).map (fun f => f.id)

/-- DELETE FROM functions_fts WHERE id IN (SELECT id FROM functions WHERE path = p). -/
def deleteFtsForPath (p : String) (db : DB) : DB :=
  { db with fts := db.fts.filter (fun r => r.id ∉ idsAtPath db p) }

/-- DELETE FROM edges WHERE src_id IN (SELECT id FROM functions WHERE path = p). -/
def deleteEdgesForPath (p : String) (db : DB) : DB :=
  { db with edges := db.edges.filter (fun e => e.src_id ∉ idsAtPath db p) }

/-- DELETE FROM functions WHERE path = p. -/
def deleteFunctionsForPath (p : String) (db : DB) : DB :=
  { db with functions := db.functions.filter (fun f => f.path ≠ p) }

/-- The three statements run for one purged path, in source order:
full-text rows first, then edges, then the entity rows. The same
triple is used by the incremental purge phase of ingest.js and by the
file-delete handler of the watcher. -/
def purgeSteps (p : String) : List (DB → DB) :=
  [deleteFtsForPath p, deleteEdgesForPath p, deleteFunctionsForPath p]

def stepsForPaths : List String → List (DB → DB)
  | [] => []
  | p :: ps => purgeSteps p ++ stepsForPaths ps

def applySteps (db : DB) (fs : List (DB → DB)) : DB :=
  fs.foldl (fun d f => f d) db

/-- Every store state reached while a step list runs, the initial state
included. -/
def statesFrom : DB → List (DB → DB) → List DB
  | db, [] => [db]
  | db, f :: fs => db :: statesFrom (f db) fs

/-- The affected-path collection pass of processLines: blank lines are
skipped, JSON.parse failures are caught and skipped, and a path is
added to the JavaScript Set only when it is truthy (the empty string is
falsy). -/
def affectedPaths (lines : List Line) : List String :=
  lines.foldl
    (fun acc l =>
      match l with
      | Line.record r => if r.path ≠ "" then insertS r.path acc else acc
      | _ => acc)
    []

/-- The JavaScript normalisation func.end_line or null maps the number 0
to null. -/
def endLineVal (e : Option Nat) : Option Nat :=
  e.bind (fun n => if n = 0 then none else some n)

def toFuncRow (i : String) (r : RawRecord) : FuncRow :=
  { id := i, module := r.module, name := r.name, arity := r.arity,
    kind := r.kind.getD "function", path := r.path,
    start_line := r.start_line, end_line := endLineVal r.end_line,
    signature := r.signature, spec := r.spec, doc := r.doc,
    lexical_text := r.lexical_text, struct_text := r.struct_text }

/-- INSERT OR REPLACE INTO functions: the row with the same primary-key
id is replaced. -/
def insertFunctionRow (i : String) (r : RawRecord) (db : DB) : DB :=
  { db with functions := db.functions.filter (fun f => f.id ≠ i) ++ [toFuncRow i r] }

/-- INSERT OR REPLACE INTO functions_fts: a plain insert, since the fts5
table has no constraint for REPLACE to act on. -/
def insertFtsRow (i : String) (r : RawRecord) (db : DB) : DB :=
  { db with fts := db.fts ++ [⟨i, r.module, r.lexical_text⟩] }

/-- INSERT OR IGNORE INTO edges for each element of func.calls: the
edges table row is exactly the UNIQUE(src_id, dst_mfa, kind) triple, so
an insert is ignored precisely when the row is already present. -/
def insertEdgeRows (i : String) (calls : List String) (db : DB) : DB :=
  calls.foldl
    (fun d c =>
      if (⟨i, c, "call"⟩ : EdgeRow) ∈ d.edges then d
      else { d with edges := d.edges ++ [⟨i, c, "call"⟩] })
    db

theorem insertEdgeRows_schemaPresent (i : String) :
    ∀ (calls : List String) (db : DB),
      (insertEdgeRows i calls db).schemaPresent = db.schemaPresent := by
  intro calls
  induction calls with
  | nil => intro db; rfl
  | cons c cs ih =>
    intro db
    have h1 : insertEdgeRows i (c :: cs) db
        = insertEdgeRows i cs
            (if (⟨i, c, "call"⟩ : EdgeRow) ∈ db.edges then db
             else { db with edges := db.edges ++ [⟨i, c, "call"⟩] }) := rfl
    rw [h1, ih]
    by_cases h : (⟨i, c, "call"⟩ : EdgeRow) ∈ db.edges <;> simp [h]

/-- The insert loop of processLines. Blank lines are skipped; JSON.parse
runs outside any try block here, so a malformed line throws and aborts
the transaction; an insert failure is logged and then re-thrown, which
also aborts the transaction. -/
def insertLoop : DB → Nat → List Line → Except IngestErr (DB × Nat)
  | db, n, [] => Except.ok (db, n)
  | db, n, Line.blank :: t => insertLoop db n t
  | _, _, Line.malformed :: _ => Except.error IngestErr.recordMalformed
  | db, n, Line.record r :: t =>
    match r.id with
    | none => Except.error IngestErr.insertFailed
    | some i =>
      insertLoop (insertEdgeRows i r.calls (insertFtsRow i r (insertFunctionRow i r db))) (n + 1) t

/-- The transaction body of processLines: in incremental mode purge every
affected path (full-text rows, then edges, then entities, per path),
then run the insert loop. An error anywhere rolls the whole
transaction back. -/
def processLines (incremental : Bool) (db : DB) (lines : List Line) :
    Except IngestErr (DB × Nat) :=
  let db1 := if incremental then applySteps db (stepsForPaths (affectedPaths lines)) else db
  insertLoop db1 0 lines

/-- One run of ingest.js. Without the incremental flag the schema is
dropped and recreated (DDL committed before the transaction starts), so
a failing transaction leaves the fresh empty schema; with the flag the
schema probe fails first when no full rebuild has ever run, and a
failing transaction rolls back to the incoming state. The returned
store is the state the process leaves behind. -/
def ingestRun (incremental : Bool) (db : DB) (lines : List Line) :
    DB × Except IngestErr Nat :=
  if incremental then
    if db.schemaPresent then
      match processLines true db lines with
      | Except.ok (d, n) => (d, Except.ok n)
      | Except.error e => (db, Except.error e)
    else
      (db, Except.error IngestErr.schemaMissing)
  else
    match processLines false freshDB lines with
    | Except.ok (d, n) => (d, Except.ok n)
    | Except.error e => (freshDB, Except.error e)

/-- A line the insert loop can always process. -/
def lineOk : Line → Prop
  | Line.blank => True
  | Line.malformed => False
  | Line.record r => r.id.isSome = true

instance : DecidablePred lineOk := by
  intro l; cases l <;> simp [lineOk] <;> infer_instance

theorem insertLoop_ok_of_lineOk :
    ∀ (lines : List Line) (db : DB) (n : Nat), (∀ l ∈ lines, lineOk l) →
      ∃ d m, insertLoop db n lines = Except.ok (d, m) := by
  intro lines
  induction lines with
  | nil => intro db n _; exact ⟨db, n, rfl⟩
  | cons l t ih =>
    intro db n h
    have hl := h l (List.mem_cons_self l t)
    have ht : ∀ x ∈ t, lineOk x := fun x hx => h x (List.mem_cons_of_mem l hx)
    cases l with
    | blank => simpa [insertLoop] using ih db n ht
    | malformed => exact absurd hl (by simp [lineOk])
    | record r =>
      rcases Option.isSome_iff_exists.mp hl with ⟨i, hi⟩
      simpa [insertLoop, hi] using
        ih (insertEdgeRows i r.calls (insertFtsRow i r (insertFunctionRow i r db))) (n + 1) ht

/-! ## Concrete records for the ingest claims -/

/-- A well-formed record, as the exporter would emit for a definition
in lib/a.ex. -/
def goodRec : RawRecord :=
  { id := some "M|f|1|lib/a.ex", module := "M", name := "f", arity := 1,
    kind := some "function", path := "lib/a.ex", start_line := 10,
    end_line := some 12, signature := some "f(x)", spec := none, doc := none,
    lexical_text := "M.f(x) body", struct_text := some "def f(x)",
    calls := ["g/0"] }

/-- A second well-formed record sharing the id of goodRec: the exporter
id hashes module, name, arity and file only, so a def f/1 and a
defmacro f/1 in the same module and file receive the same id. -/
def dupRec : RawRecord :=
  { id := some "M|f|1|lib/a.ex", module := "M", name := "f", arity := 1,
    kind := some "macro", path := "lib/a.ex", start_line := 20,
    end_line := some 25, signature := some "f(x)", spec := none, doc := none,
    lexical_text := "M.f(x) macro body", struct_text := some "defmacro f(x)",
    calls := ["h/0"] }

/-- A store that has been through a full rebuild and holds one entity. -/
def seededDB : DB :=
  (ingestRun false emptyDB [Line.record goodRec]).1

/-- C1. The claim says a malformed line is skipped while the well-formed
records of the batch are still ingested. The code contradicts it: in
the insert loop of processLines, JSON.parse runs outside any try block
(only the affected-path pass catches it), so one unparseable line
throws, the transaction rolls back, and the batch ends with the store
unchanged and nothing ingested, the well-formed record included. -/
theorem c1_malformed_line_aborts_whole_batch :
    ingestRun true seededDB [Line.record dupRec, Line.malformed]
      = (seededDB, Except.error IngestErr.recordMalformed)
    ∧ lineOk (Line.record dupRec) := by
  constructor
  · rfl
  · simp [lineOk, dupRec]

/-- C3. The claim says every primary row has exactly one full-text row
with the same id after any operation sequence, including batches with
two records of the same id. The code contradicts it: a full rebuild of
a batch whose two records share an id leaves one functions row (the
primary key makes INSERT OR REPLACE overwrite) but two functions_fts
rows (the fts5 table has no constraint, so its INSERT OR REPLACE is a
plain insert), and the run reports success. -/
theorem c3_duplicate_id_breaks_fts_mirror :
    (ingestRun false emptyDB [Line.record goodRec, Line.record dupRec]).2 = Except.ok 2
    ∧ ((ingestRun false emptyDB [Line.record goodRec, Line.record dupRec]).1.functions.countP
        (fun f => f.id = "M|f|1|lib/a.ex")) = 1
    ∧ ((ingestRun false emptyDB [Line.record goodRec, Line.record dupRec]).1.fts.countP
        (fun r => r.id = "M|f|1|lib/a.ex")) = 2 := by
  refine ⟨rfl, by decide, by decide⟩

/-- C8. An incremental merge invoked before any full rebuild has created
the schema fails with the schema-missing error and leaves the store
untouched; after a full rebuild on the same input both the rebuild and
the incremental merge succeed, provided every line of the input is
well formed. -/
theorem c8_schema_missing_then_recover (db : DB) (lines : List Line)
    (hschema : db.schemaPresent = false) (hok : ∀ l ∈ lines, lineOk l) :
    ingestRun true db lines = (db, Except.error IngestErr.schemaMissing)
    ∧ (∃ n, (ingestRun false db lines).2 = Except.ok n)
    ∧ (∃ m, (ingestRun true (ingestRun false db lines).1 lines).2 = Except.ok m) := by
  refine ⟨by simp [ingestRun, hschema], ?_, ?_⟩
  · rcases insertLoop_ok_of_lineOk lines freshDB 0 hok with ⟨d, m, hm⟩
    exact ⟨m, by simp [ingestRun, processLines, hm]⟩
  · rcases insertLoop_ok_of_lineOk lines freshDB 0 hok with ⟨d, m, hm⟩
    have h1 : (ingestRun false db lines).1 = d := by
      simp [ingestRun, processLines, hm]
    have hpres : d.schemaPresent = true := by
      have : ∀ (ls : List Line) (s : DB) (k : Nat) (d₀ : DB) (m₀ : Nat),
          insertLoop s k ls = Except.ok (d₀, m₀) → d₀.schemaPresent = s.schemaPresent := by
        intro ls
        induction ls with
        | nil => intro s k d₀ m₀ h; simp [insertLoop] at h; rw [← h.1]
        | cons l t ih =>
          intro s k d₀ m₀ h
          cases l with
          | blank => exact ih s k d₀ m₀ (by simpa [insertLoop] using h)
          | malformed => simp [insertLoop] at h
          | record r =>
            cases hi : r.id with
            | none => simp [insertLoop, hi] at h
            | some i =>
              have h2 := ih _ _ d₀ m₀ (by simpa [insertLoop, hi] using h)
              rw [h2, insertEdgeRows_schemaPresent]
              rfl
      have := this lines freshDB 0 d m hm
      simpa [freshDB] using this
    rcases insertLoop_ok_of_lineOk lines
        (applySteps d (stepsForPaths (affectedPaths lines))) 0 hok with ⟨d2, m2, hm2⟩
    refine ⟨m2, ?_⟩
    rw [h1]
    simp [ingestRun, hpres, processLines, hm2]

/-- Closed witness for c8_schema_missing_then_recover at a concrete
store and batch. -/
theorem c8_schema_missing_then_recover_witness :
    ingestRun true emptyDB [Line.record goodRec]
        = (emptyDB, Except.error IngestErr.schemaMissing)
    ∧ (∃ n, (ingestRun false emptyDB [Line.record goodRec]).2 = Except.ok n)
    ∧ (∃ m, (ingestRun true (ingestRun false emptyDB [Line.record goodRec]).1
        [Line.record goodRec]).2 = Except.ok m) :=
  c8_schema_missing_then_recover emptyDB [Line.record goodRec] (by rfl)
    (by intro l hl; simp at hl; subst hl; simp [lineOk, goodRec])

/-! ## Deletion ordering (claim C7)

Both deletion sites — the purge phase of the incremental merge in
ingest.js and the file-delete handler of the watcher — run, per path,
the same three statements in the same order: full-text rows, then
edges, then entity rows (purgeSteps above). The claim is that no
intermediate store state has a full-text or edge row referencing an
entity row that no longer exists. -/

/-- Referential integrity of the store: every full-text row and every
edge points at an existing functions row. -/
def refOK (db : DB) : Prop :=
  (∀ r ∈ db.fts, r.id ∈ db.functions.map FuncRow.id)
  ∧ (∀ e ∈ db.edges, e.src_id ∈ db.functions.map FuncRow.id)

instance (db : DB) : Decidable (refOK db) := by
  unfold refOK; infer_instance

theorem refOK_deleteFtsForPath (p : String) {db : DB} (h : refOK db) :
    refOK (deleteFtsForPath p db) := by
  obtain ⟨h1, h2⟩ := h
  exact ⟨fun r hr => h1 r (List.mem_of_mem_filter hr), fun e he => h2 e he⟩

theorem refOK_deleteEdgesForPath (p : String) {db : DB} (h : refOK db) :
    refOK (deleteEdgesForPath p db) := by
  obtain ⟨h1, h2⟩ := h
  exact ⟨fun r hr => h1 r hr, fun e he => h2 e (List.mem_of_mem_filter he)⟩

theorem refOK_purge_triple (p : String) {db : DB} (h : refOK db) :
    refOK (deleteFunctionsForPath p (deleteEdgesForPath p (deleteFtsForPath p db))) := by
  obtain ⟨h1, h2⟩ := h
  constructor
  · intro r hr
    have hr2 : r ∈ db.fts ∧ r.id ∉ idsAtPath db p := by
      simpa [deleteFunctionsForPath, deleteEdgesForPath, deleteFtsForPath,
        List.mem_filter] using hr
    obtain ⟨f, hf, hfid⟩ := List.mem_map.mp (h1 r hr2.1)
    have hfp : f.path ≠ p := by
      intro hp
      refine hr2.2 ?_
      rw [← hfid]
      exact List.mem_map_of_mem _ (List.mem_filter.mpr ⟨hf, by simp [hp]⟩)
    have hmem : f ∈ db.functions.filter (fun f => f.path ≠ p) :=
      List.mem_filter.mpr ⟨hf, by simp [hfp]⟩
    simpa [deleteFunctionsForPath, deleteEdgesForPath, deleteFtsForPath] using
      (List.mem_map.mpr ⟨f, hmem, hfid⟩)
  · intro e he
    have he2 : e ∈ db.edges ∧ e.src_id ∉ idsAtPath db p := by
      simpa [deleteFunctionsForPath, deleteEdgesForPath, deleteFtsForPath,
        List.mem_filter] using he
    obtain ⟨f, hf, hfid⟩ := List.mem_map.mp (h2 e he2.1)
    have hfp : f.path ≠ p := by
      intro hp
      refine he2.2 ?_
      rw [← hfid]
      exact List.mem_map_of_mem _ (List.mem_filter.mpr ⟨hf, by simp [hp]⟩)
    have hmem : f ∈ db.functions.filter (fun f => f.path ≠ p) :=
      List.mem_filter.mpr ⟨hf, by simp [hfp]⟩
    simpa [deleteFunctionsForPath, deleteEdgesForPath, deleteFtsForPath] using
      (List.mem_map.mpr ⟨f, hmem, hfid⟩)

/-- C7. For every deletion — the explicit purge on a file-delete event
(a one-path list) or the purge phase of an incremental merge (the list
of affected paths) — full-text rows are removed before the entity rows
and edges before the entity rows, per path, so every intermediate store
state still satisfies referential integrity: no full-text or edge row
ever references an entity row that no longer exists. -/
theorem c7_deletion_order_integrity :
    ∀ (ps : List String) (db : DB), refOK db →
      ∀ s ∈ statesFrom db (stepsForPaths ps), refOK s := by
  intro ps
  induction ps with
  | nil =>
    intro db h s hs
    simp only [stepsForPaths, statesFrom, List.mem_singleton] at hs
    subst hs; exact h
  | cons p ps ih =>
    intro db h s hs
    have e1 := refOK_deleteFtsForPath p h
    have e2 := refOK_deleteEdgesForPath p e1
    have e3 := refOK_purge_triple p h
    simp only [stepsForPaths, purgeSteps, List.cons_append, List.nil_append, statesFrom,
      List.mem_cons] at hs
    rcases hs with rfl | rfl | rfl | hs
    · exact h
    · exact e1
    · exact e2
    · exact ih _ e3 s hs

/-- A small store satisfying referential integrity: one entity at the
path about to be purged, one edge sourced from it, one full-text row. -/
def c7WitnessRow : FuncRow :=
  { id := "A", module := "M", name := "f", arity := 1,
    kind := "function", path := "lib/a.ex", start_line := 1, end_line := some 2,
    signature := none, spec := none, doc := none, lexical_text := "M.f(x)",
    struct_text := none }

def c7WitnessDB : DB :=
  { schemaPresent := true,
    functions := [c7WitnessRow],
    edges := [⟨"A", "g/0", "call"⟩],
    fts := [⟨"A", "M", "M.f(x)"⟩] }

/-- Closed witness for c7_deletion_order_integrity: the final state of
purging lib/a.ex from the concrete store keeps referential integrity. -/
theorem c7_deletion_order_integrity_witness :
    refOK (deleteFunctionsForPath "lib/a.ex"
      (deleteEdgesForPath "lib/a.ex" (deleteFtsForPath "lib/a.ex" c7WitnessDB))) :=
  c7_deletion_order_integrity ["lib/a.ex"] c7WitnessDB (by decide)
    (deleteFunctionsForPath "lib/a.ex"
      (deleteEdgesForPath "lib/a.ex" (deleteFtsForPath "lib/a.ex" c7WitnessDB)))
    (by simp [stepsForPaths, purgeSteps, statesFrom])

/-! ## Entity extractor dedup stage (scripts/export.exs, Exporter v2)

After collecting one record per clause across all scanned files, the
exporter groups them by the four-tuple module, name, arity, kind and
emits one merged record per group: the primary is the clause whose
start_line is smallest (Enum.min_by keeps the first minimal element),
end_line is taken from the clause whose end_line is largest
(Enum.max_by keeps the first maximal element), and calls is the
concatenation of all clause call lists deduplicated by Enum.uniq. The
output order of the groups comes from Elixir map iteration and is
unspecified; it is modelled as first-occurrence key order, and no claim
depends on it. -/

/-- One extracted definition record. Fields never inspected by the merge
(signature, spec, doc, struct_text) ride along with the primary
unchanged and are omitted. -/
structure Def where
  module : String
  name : String
  arity : Nat
  kind : String
  path : String
  start_line : Nat
  end_line : Nat
  lexical_text : String
  calls : List String
  deriving DecidableEq, Repr

/-- The grouping key of unique_defs: module, name, arity, kind — the
path is not part of it. -/
def defKey (d : Def) : String × String × Nat × String :=
  (d.module, d.name, d.arity, d.kind)

/-- Enum.min_by with the default ordering: the first minimal element. -/
def minBy (f : Def → Nat) : List Def → Option Def
  | [] => none
  | a :: t =>
    match minBy f t with
    | none => some a
    | some b => if f a ≤ f b then some a else some b

/-- Enum.max_by with the default ordering: the first maximal element. -/
def maxBy (f : Def → Nat) : List Def → Option Def
  | [] => none
  | a :: t =>
    match maxBy f t with
    | none => some a
    | some b => if f a < f b then some b else some a

theorem minBy_eq_some (f : Def → Nat) :
    ∀ (l : List Def), l ≠ [] → ∃ m, minBy f l = some m := by
  intro l hl
  cases l with
  | nil => exact absurd rfl hl
  | cons a t =>
    cases h : minBy f t with
    | none => exact ⟨a, by simp [minBy, h]⟩
    | some b =>
      by_cases hle : f a ≤ f b
      · exact ⟨a, by simp [minBy, h, hle]⟩
      · exact ⟨b, by simp [minBy, h, hle]⟩

theorem minBy_mem (f : Def → Nat) :
    ∀ (l : List Def) (m : Def), minBy f l = some m → m ∈ l := by
  intro l
  induction l with
  | nil => intro m h; simp [minBy] at h
  | cons a t ih =>
    intro m h
    cases ht : minBy f t with
    | none => simp [minBy, ht] at h; exact h ▸ List.mem_cons_self a t
    | some b =>
      by_cases hle : f a ≤ f b
      · simp [minBy, ht, hle] at h; exact h ▸ List.mem_cons_self a t
      · simp [minBy, ht, hle] at h
        exact List.mem_cons_of_mem a (h ▸ ih b ht)

theorem minBy_min (f : Def → Nat) :
    ∀ (l : List Def) (m : Def), minBy f l = some m → ∀ x ∈ l, f m ≤ f x := by
  intro l
  induction l with
  | nil => intro m h; simp [minBy] at h
  | cons a t ih =>
    intro m h x hx
    cases ht : minBy f t with
    | none =>
      cases t with
      | nil =>
        simp [minBy] at h
        rcases List.mem_singleton.mp hx with rfl
        exact h ▸ le_refl _
      | cons b u =>
        exact absurd ht (by
          rcases minBy_eq_some f (b :: u) (by simp) with ⟨m', hm'⟩
          simp [hm'])
    | some b =>
      by_cases hle : f a ≤ f b
      · simp [minBy, ht, hle] at h
        subst h
        rcases List.mem_cons.mp hx with rfl | hx
        · exact le_refl _
        · exact le_trans hle (ih b ht x hx)
      · simp [minBy, ht, hle] at h
        subst h
        rcases List.mem_cons.mp hx with rfl | hx
        · exact le_of_lt (Nat.lt_of_not_le hle)
        · exact ih b ht x hx

theorem maxBy_eq_some (f : Def → Nat) :
    ∀ (l : List Def), l ≠ [] → ∃ m, maxBy f l = some m := by
  intro l hl
  cases l with
  | nil => exact absurd rfl hl
  | cons a t =>
    cases h : maxBy f t with
    | none => exact ⟨a, by simp [maxBy, h]⟩
    | some b =>
      by_cases hlt : f a < f b
      · exact ⟨b, by simp [maxBy, h, hlt]⟩
      · exact ⟨a, by simp [maxBy, h, hlt]⟩

theorem maxBy_mem (f : Def → Nat) :
    ∀ (l : List Def) (m : Def), maxBy f l = some m → m ∈ l := by
  intro l
  induction l with
  | nil => intro m h; simp [maxBy] at h
  | cons a t ih =>
    intro m h
    cases ht : maxBy f t with
    | none => simp [maxBy, ht] at h; exact h ▸ List.mem_cons_self a t
    | some b =>
      by_cases hlt : f a < f b
      · simp [maxBy, ht, hlt] at h
        exact List.mem_cons_of_mem a (h ▸ ih b ht)
      · simp [maxBy, ht, hlt] at h
        exact h ▸ List.mem_cons_self a t

theorem maxBy_max (f : Def → Nat) :
    ∀ (l : List Def) (m : Def), maxBy f l = some m → ∀ x ∈ l, f x ≤ f m := by
  intro l
  induction l with
  | nil => intro m h; simp [maxBy] at h
  | cons a t ih =>
    intro m h x hx
    cases ht : maxBy f t with
    | none =>
      cases t with
      | nil =>
        simp [maxBy] at h
        rcases List.mem_singleton.mp hx with rfl
        exact h ▸ le_refl _
      | cons b u =>
        exact absurd ht (by
          rcases maxBy_eq_some f (b :: u) (by simp) with ⟨m', hm'⟩
          simp [hm'])
    | some b =>
      by_cases hlt : f a < f b
      · simp [maxBy, ht, hlt] at h
        subst h
        rcases List.mem_cons.mp hx with rfl | hx
        · exact le_of_lt hlt
        · exact ih b ht x hx
      · simp [maxBy, ht, hlt] at h
        subst h
        rcases List.mem_cons.mp hx with rfl | hx
        · exact le_refl _
        · exact le_trans (ih b ht x hx) (Nat.le_of_not_lt hlt)

/-- Enum.flat_map over the call lists of a group, in list order. -/
def concatCalls : List Def → List String
  | [] => []
  | d :: t => d.calls ++ concatCalls t

theorem mem_concatCalls {c : String} :
    ∀ {g : List Def}, c ∈ concatCalls g ↔ ∃ x ∈ g, c ∈ x.calls := by
  intro g
  induction g with
  | nil => simp [concatCalls]
  | cons d t ih =>
    simp only [concatCalls, List.mem_append, ih]
    constructor
    · rintro (hc | ⟨x, hx, hcx⟩)
      · exact ⟨d, List.mem_cons_self d t, hc⟩
      · exact ⟨x, List.mem_cons_of_mem d hx, hcx⟩
    · rintro ⟨x, hx, hcx⟩
      rcases List.mem_cons.mp hx with rfl | hx
      · exact Or.inl hcx
      · exact Or.inr ⟨x, hx, hcx⟩

/-- The merge of one group: primary clause (first minimal start_line)
with end_line replaced by the largest end_line and calls replaced by
the deduplicated concatenation of all clause calls. -/
def mergeGroup (g : List Def) : Option Def :=
  match minBy (fun d => d.start_line) g, maxBy (fun d => d.end_line) g with
  | some primary, some last =>
    some { primary with calls := uniq (concatCalls g), end_line := last.end_line }
  | _, _ => none

/-- unique_defs of Exporter v2: group by defKey and merge each group. -/
def unique_defs (defs : List Def) : List Def :=
  (uniq (defs.map defKey)).filterMap
    (fun k => mergeGroup (defs.filter (fun d => defKey d = k)))

theorem mergeGroup_spec (g : List Def) (hne : g ≠ []) :
    ∃ e, mergeGroup g = some e
      ∧ (∃ p ∈ g, defKey e = defKey p ∧ e.start_line = p.start_line)
      ∧ (∀ x ∈ g, e.start_line ≤ x.start_line)
      ∧ (∃ q ∈ g, e.end_line = q.end_line)
      ∧ (∀ x ∈ g, x.end_line ≤ e.end_line)
      ∧ e.calls = uniq (concatCalls g) := by
  obtain ⟨p, hp⟩ := minBy_eq_some (fun d => d.start_line) g hne
  obtain ⟨q, hq⟩ := maxBy_eq_some (fun d => d.end_line) g hne
  refine ⟨{ p with calls := uniq (concatCalls g), end_line := q.end_line },
    by simp [mergeGroup, hp, hq], ⟨p, minBy_mem _ g p hp, by simp [defKey], rfl⟩,
    ?_, ⟨q, maxBy_mem _ g q hq, rfl⟩, ?_, rfl⟩
  · intro x hx; exact minBy_min _ g p hp x hx
  · intro x hx; exact maxBy_max _ g q hq x hx

theorem countP_filterMap_keyed {α κ : Type} [DecidableEq κ] (keyOf : α → κ) :
    ∀ (ks : List κ) (F : κ → Option α), ks.Nodup →
      (∀ k ∈ ks, ∃ e, F k = some e ∧ keyOf e = k) →
      ∀ k₀ ∈ ks, (ks.filterMap F).countP (fun e => decide (keyOf e = k₀)) = 1 := by
  intro ks
  induction ks with
  | nil => intro F _ _ k₀ hk₀; simp at hk₀
  | cons k t ih =>
    intro F hnd hF k₀ hk₀
    obtain ⟨e, hFe, hke⟩ := hF k (List.mem_cons_self k t)
    have hnd2 := List.nodup_cons.mp hnd
    have hzero : ∀ e' ∈ t.filterMap F, keyOf e' ≠ k := by
      intro e' he'
      obtain ⟨k', hk', hFk'⟩ := List.mem_filterMap.mp he'
      obtain ⟨e'', hFe'', hke''⟩ := hF k' (List.mem_cons_of_mem k hk')
      have : e' = e'' := by rw [hFk'] at hFe''; exact (Option.some.inj hFe'')
      subst this
      rw [hke'']
      intro hc
      exact hnd2.1 (hc ▸ hk')
    rcases List.mem_cons.mp hk₀ with rfl | hk₀t
    · have : (t.filterMap F).countP (fun e => decide (keyOf e = k₀)) = 0 := by
        rw [List.countP_eq_zero]
        intro a ha
        simpa using hzero a ha
      simp [List.filterMap_cons, hFe, List.countP_cons, this, hke]
    · have hkk : k ≠ k₀ := fun hc => hnd2.1 (hc ▸ hk₀t)
      have hrest := ih F hnd2.2 (fun k' hk' => hF k' (List.mem_cons_of_mem k hk')) k₀ hk₀t
      have : decide (keyOf e = k₀) = false := by
        simp [hke]
        exact hkk
      simp [List.filterMap_cons, hFe, List.countP_cons, this, hrest]

/-- C2 (amended). The grouping identity of the merge step is the
four-tuple module, name, arity, kind: for every extracted definition,
the deduplicated exporter output contains exactly one entity with that
key, whose start_line is the minimum start_line of the group, whose
end_line is the maximum end_line of the group, and whose calls are
exactly the union of the group call lists, without duplicates. -/
theorem c2_merge_by_module_name_arity_kind (defs : List Def) (d : Def) (hd : d ∈ defs) :
    (unique_defs defs).countP (fun e => decide (defKey e = defKey d)) = 1
    ∧ ∃ e ∈ unique_defs defs, defKey e = defKey d
        ∧ (∀ x ∈ defs.filter (fun x => defKey x = defKey d), e.start_line ≤ x.start_line)
        ∧ e.start_line ∈ (defs.filter (fun x => defKey x = defKey d)).map Def.start_line
        ∧ (∀ x ∈ defs.filter (fun x => defKey x = defKey d), x.end_line ≤ e.end_line)
        ∧ e.end_line ∈ (defs.filter (fun x => defKey x = defKey d)).map Def.end_line
        ∧ (∀ c, c ∈ e.calls ↔ ∃ x ∈ defs.filter (fun x => defKey x = defKey d), c ∈ x.calls)
        ∧ e.calls.Nodup := by
  have hdg : d ∈ defs.filter (fun x => defKey x = defKey d) :=
    List.mem_filter.mpr ⟨hd, by simp⟩
  have hgne : defs.filter (fun x => defKey x = defKey d) ≠ [] := List.ne_nil_of_mem hdg
  have hkuniq : defKey d ∈ uniq (defs.map defKey) :=
    mem_uniq.mpr (List.mem_map_of_mem defKey hd)
  have hFall : ∀ k' ∈ uniq (defs.map defKey),
      ∃ e', mergeGroup (defs.filter (fun x => defKey x = k')) = some e' ∧ defKey e' = k' := by
    intro k' hk'
    obtain ⟨d', hd', hkd'⟩ := List.mem_map.mp (mem_uniq.mp hk')
    have hdg' : d' ∈ defs.filter (fun x => defKey x = k') :=
      List.mem_filter.mpr ⟨hd', by simp [hkd']⟩
    obtain ⟨e', he', ⟨p', hp'mem, hkey', _⟩, _⟩ :=
      mergeGroup_spec (defs.filter (fun x => defKey x = k')) (List.ne_nil_of_mem hdg')
    have hkp' : defKey p' = k' := by
      have := (List.mem_filter.mp hp'mem).2
      simpa using this
    exact ⟨e', he', hkey'.trans hkp'⟩
  obtain ⟨e, he, ⟨p, hpmem, hkeyp, hstartp⟩, hmin, ⟨q, hqmem, hendq⟩, hmax, hcalls⟩ :=
    mergeGroup_spec (defs.filter (fun x => defKey x = defKey d)) hgne
  have hkeye : defKey e = defKey d := by
    have := (List.mem_filter.mp hpmem).2
    rw [hkeyp]
    simpa using this
  constructor
  · exact countP_filterMap_keyed defKey (uniq (defs.map defKey)) _ (nodup_uniq _)
      hFall (defKey d) hkuniq
  · refine ⟨e, List.mem_filterMap.mpr ⟨defKey d, hkuniq, he⟩, hkeye, hmin, ?_, hmax, ?_, ?_, ?_⟩
    · exact List.mem_map.mpr ⟨p, hpmem, hstartp.symm⟩
    · exact List.mem_map.mpr ⟨q, hqmem, hendq.symm⟩
    · intro c
      rw [hcalls, mem_uniq, mem_concatCalls]
    · rw [hcalls]; exact nodup_uniq _

/-- First clause of the C2 counterexample: a def f/1 at lines 10 to 12
in lib/a.ex. -/
def c2DefA : Def :=
  { module := "M", name := "f", arity := 1, kind := "function", path := "lib/a.ex",
    start_line := 10, end_line := 12, lexical_text := "M.f(x) body", calls := ["g/0"] }

/-- Second clause of the C2 counterexample: a defmacro f/1 at lines 20
to 25 in the same module and file, sharing module, name, arity and
path with c2DefA but not kind. -/
def c2DefB : Def :=
  { module := "M", name := "f", arity := 1, kind := "macro", path := "lib/a.ex",
    start_line := 20, end_line := 25, lexical_text := "M.f(x) macro", calls := ["h/0"] }

/-- The exporter id make_id: sha256 of the joined string, modelled here
by its preimage; the claims depend only on id equality and sha256 is
injective on these inputs. The hash covers module, name, arity and
file — not kind. -/
def mkId (m n : String) (a : Nat) (f : String) : String :=
  m ++ "|" ++ n ++ "|" ++ toString a ++ "|" ++ f

/-- Serialization of an exporter record to the JSONL line ingest reads. -/
def toRecord (d : Def) : RawRecord :=
  { id := some (mkId d.module d.name d.arity d.path), module := d.module,
    name := d.name, arity := d.arity, kind := some d.kind, path := d.path,
    start_line := d.start_line, end_line := some d.end_line, signature := none,
    spec := none, doc := none, lexical_text := d.lexical_text, struct_text := none,
    calls := d.calls }

/-- The extractor-to-store pipeline on a clause list: dedup and merge,
serialize, fully rebuild the store from the result. -/
def pipelineDB (defs : List Def) : DB :=
  (ingestRun false emptyDB ((unique_defs defs).map (fun d => Line.record (toRecord d)))).1

/-- Smallest start_line of a clause group. -/
def minStart : List Def → Nat
  | [] => 0
  | d :: t => t.foldl (fun m x => Nat.min m x.start_line) d.start_line

/-- Largest end_line of a clause group. -/
def maxEnd : List Def → Nat
  | [] => 0
  | d :: t => t.foldl (fun m x => Nat.max m x.end_line) d.end_line

/-- The count and line-range core of claim C2, stated over the ingested
store exactly as the claim reads: for clauses sharing module, name,
arity and path, exactly one entity row with that identity exists, with
start_line the minimum and end_line the maximum across the clauses. -/
def claimC2Core (defs : List Def) : Prop :=
  ∀ d ∈ defs,
    ((pipelineDB defs).functions.filter
        (fun r => r.module = d.module ∧ r.name = d.name ∧ r.arity = d.arity
          ∧ r.path = d.path)).length = 1
    ∧ ∀ r ∈ (pipelineDB defs).functions.filter
        (fun r => r.module = d.module ∧ r.name = d.name ∧ r.arity = d.arity
          ∧ r.path = d.path),
        r.start_line = minStart (defs.filter
          (fun x => x.module = d.module ∧ x.name = d.name ∧ x.arity = d.arity
            ∧ x.path = d.path))
        ∧ r.end_line = some (maxEnd (defs.filter
            (fun x => x.module = d.module ∧ x.name = d.name ∧ x.arity = d.arity
              ∧ x.path = d.path)))

instance (defs : List Def) : Decidable (claimC2Core defs) := by
  unfold claimC2Core; infer_instance

/-- C2 (counterexample). Two clauses sharing module, name, arity and
path but differing in kind refute the claim: unique_defs groups by
kind, the two merged entities collide on the id (which ignores kind),
INSERT OR REPLACE keeps the later one, and the single surviving row
carries start_line 20 — not the minimum 10 across the clauses. -/
theorem c2_counterexample :
    (c2DefA.module = c2DefB.module ∧ c2DefA.name = c2DefB.name
      ∧ c2DefA.arity = c2DefB.arity ∧ c2DefA.path = c2DefB.path)
    ∧ ¬ claimC2Core [c2DefA, c2DefB] := by
  constructor
  · refine ⟨rfl, rfl, rfl, rfl⟩
  · decide

/-- Closed witness for c2_merge_by_module_name_arity_kind at the
two-clause counterexample input, instantiated at the first clause. -/
theorem c2_merge_by_module_name_arity_kind_witness :
    (unique_defs [c2DefA, c2DefB]).countP
        (fun e => decide (defKey e = defKey c2DefA)) = 1
    ∧ ∃ e ∈ unique_defs [c2DefA, c2DefB], defKey e = defKey c2DefA
        ∧ (∀ x ∈ [c2DefA, c2DefB].filter (fun x => defKey x = defKey c2DefA),
            e.start_line ≤ x.start_line)
        ∧ e.start_line ∈ ([c2DefA, c2DefB].filter
            (fun x => defKey x = defKey c2DefA)).map Def.start_line
        ∧ (∀ x ∈ [c2DefA, c2DefB].filter (fun x => defKey x = defKey c2DefA),
            x.end_line ≤ e.end_line)
        ∧ e.end_line ∈ ([c2DefA, c2DefB].filter
            (fun x => defKey x = defKey c2DefA)).map Def.end_line
        ∧ (∀ c, c ∈ e.calls ↔ ∃ x ∈ [c2DefA, c2DefB].filter
            (fun x => defKey x = defKey c2DefA), c ∈ x.calls)
        ∧ e.calls.Nodup :=
  c2_merge_by_module_name_arity_kind [c2DefA, c2DefB] c2DefA
    (List.mem_cons_self c2DefA [c2DefB])

/-! ## Watch Scheduler (the chokidar watcher, onFileChange / flushBatch /
drainPendingQueue)

State: the pending file set, the secondary set that accumulates during
an in-flight rebuild, the rebuild-in-progress flag and the debounce
timer. The ghost field flushed records every path handed to a flush
batch, so that the no-silent-loss property can be stated: an observed
path is always still pending, still secondary, or was handed to a
flush. All three completion paths of flushBatch (export failure, empty
export output, ingest exit of either status) clear the flag and drain
the secondary set identically, so one cycleDone event models them. -/

structure Sched where
  pending : List String
  secondary : List String
  active : Bool
  timerArmed : Bool
  flushed : List String
  deriving DecidableEq, Repr

def initSched : Sched := ⟨[], [], false, false, []⟩

inductive WEvent where
  | change : String → WEvent
  | timer : WEvent
  | cycleDone : WEvent
  deriving DecidableEq, Repr

/-- One scheduler transition. change: onFileChange (add and change
watcher events); timer: the debounce timer firing into flushBatch;
cycleDone: any completion path of the flush, ending in
drainPendingQueue. -/
def schedStep (s : Sched) : WEvent → Sched
  | WEvent.change p =>
    if s.active then
      { s with secondary := insertS p s.secondary }
    else
      { s with
        pending := insertS p s.pending,
        timerArmed := true }
  | WEvent.timer =>
    if s.pending = [] then
      { s with timerArmed := false }
    else
      { s with
        pending := [],
        flushed := s.flushed ++ s.pending,
        active := true,
        timerArmed := false }
  | WEvent.cycleDone =>
    if s.secondary = [] then
      { s with active := false }
    else
      { s with
        active := false,
        pending := s.secondary.foldl (fun acc f => insertS f acc) s.pending,
        secondary := [],
        timerArmed := true }

def runSched : Sched → List WEvent → Sched
  | s, [] => s
  | s, e :: t => runSched (schedStep s e) t

/-- The paths of the change events of an event trace. -/
def observed : List WEvent → List String
  | [] => []
  | WEvent.change p :: t => p :: observed t
  | WEvent.timer :: t => observed t
  | WEvent.cycleDone :: t => observed t

/-- A path the scheduler still tracks or has handed to a flush batch. -/
def tracked (s : Sched) : List String :=
  s.pending ++ s.secondary ++ s.flushed

theorem mem_insertS {x p : String} {l : List String} :
    x ∈ insertS p l ↔ x = p ∨ x ∈ l := by
  unfold insertS
  by_cases h : p ∈ l
  · rw [if_pos h]
    constructor
    · exact Or.inr
    · rintro (rfl | hx)
      · exact h
      · exact hx
  · rw [if_neg h]
    simp [List.mem_append]
    exact Or.comm

theorem mem_foldl_insertS :
    ∀ (sec l : List String) (x : String), x ∈ l ∨ x ∈ sec →
      x ∈ sec.foldl (fun acc f => insertS f acc) l := by
  intro sec
  induction sec with
  | nil =>
    intro l x h
    rcases h with h | h
    · exact h
    · simp at h
  | cons f t ih =>
    intro l x h
    show x ∈ t.foldl (fun acc g => insertS g acc) (insertS f l)
    rcases h with h | h
    · exact ih (insertS f l) x (Or.inl (mem_insertS.mpr (Or.inr h)))
    · rcases List.mem_cons.mp h with rfl | h
      · exact ih (insertS x l) x (Or.inl (mem_insertS.mpr (Or.inl rfl)))
      · exact ih (insertS f l) x (Or.inr h)

theorem tracked_step (s : Sched) (e : WEvent) (p : String)
    (h : p ∈ tracked s) : p ∈ tracked (schedStep s e) := by
  rcases e with q | _ | _
  · by_cases ha : s.active = true <;>
      simp [schedStep, ha, tracked, mem_insertS] at h ⊢ <;> tauto
  · by_cases hp : s.pending = [] <;>
      simp [schedStep, hp, tracked] at h ⊢ <;> tauto
  · by_cases hs : s.secondary = []
    · simp [schedStep, hs, tracked] at h ⊢
      tauto
    · simp only [schedStep, if_neg hs, tracked, List.append_assoc, List.mem_append] at h ⊢
      rcases h with h | h | h
      · exact Or.inl (mem_foldl_insertS s.secondary s.pending p (Or.inl h))
      · exact Or.inl (mem_foldl_insertS s.secondary s.pending p (Or.inr h))
      · simp [h]

theorem tracked_run (p : String) :
    ∀ (evs : List WEvent) (s : Sched), p ∈ tracked s → p ∈ tracked (runSched s evs) := by
  intro evs
  induction evs with
  | nil => intro s h; exact h
  | cons e t ih => intro s h; exact ih (schedStep s e) (tracked_step s e p h)

theorem observed_tracked (p : String) :
    ∀ (evs : List WEvent) (s : Sched), p ∈ observed evs → p ∈ tracked (runSched s evs) := by
  intro evs
  induction evs with
  | nil => intro s h; simp [observed] at h
  | cons e t ih =>
    intro s h
    rcases e with q | _ | _
    · rcases List.mem_cons.mp (by simpa [observed] using h) with rfl | h2
      · refine tracked_run p t (schedStep s (WEvent.change p)) ?_
        by_cases ha : s.active = true <;>
          simp [schedStep, ha, tracked, mem_insertS]
      · exact ih (schedStep s (WEvent.change q)) h2
    · exact ih (schedStep s WEvent.timer) (by simpa [observed] using h)
    · exact ih (schedStep s WEvent.cycleDone) (by simpa [observed] using h)

/-- C9. First part: a change event arriving while a rebuild is active
goes into the secondary set (leaving every other state component,
pending included, untouched) instead of being dropped. Second part: on
every cycle completion the active flag is cleared, and when the
secondary set is non-empty its contents move into the pending set, the
secondary set empties and the debounce timer is re-armed. Third part:
over any event trace from the initial state, every observed change
path is still pending, still secondary, or was handed to a flush batch
— never silently lost. -/
theorem c9_scheduler_no_event_lost :
    (∀ (s : Sched) (p : String), s.active = true →
        schedStep s (WEvent.change p) = { s with secondary := insertS p s.secondary }
        ∧ p ∈ (schedStep s (WEvent.change p)).secondary)
    ∧ (∀ s : Sched, (schedStep s WEvent.cycleDone).active = false
        ∧ (s.secondary ≠ [] →
            (schedStep s WEvent.cycleDone).timerArmed = true
            ∧ (schedStep s WEvent.cycleDone).secondary = []
            ∧ ∀ q ∈ s.secondary, q ∈ (schedStep s WEvent.cycleDone).pending))
    ∧ (∀ (evs : List WEvent) (p : String), p ∈ observed evs →
        p ∈ tracked (runSched initSched evs)) := by
  refine ⟨?_, ?_, ?_⟩
  · intro s p h
    constructor
    · simp [schedStep, h]
    · simp [schedStep, h, mem_insertS]
  · intro s
    by_cases hs : s.secondary = []
    · exact ⟨by simp [schedStep, hs], fun hc => absurd hs hc⟩
    · refine ⟨by simp [schedStep, hs], fun _ => ⟨by simp [schedStep, hs],
        by simp [schedStep, hs], fun q hq => ?_⟩⟩
      simp only [schedStep, if_neg hs]
      exact mem_foldl_insertS s.secondary s.pending q (Or.inr hq)
  · intro evs p h
    exact observed_tracked p evs initSched h

/-- A scheduler state with an active rebuild and one queued secondary
path, for the closed witness. -/
def c9WitnessState : Sched := ⟨["x.ex"], ["y.ex"], true, false, []⟩

/-- Closed witness for c9_scheduler_no_event_lost: every hypothesis is
discharged at a concrete state and trace. -/
theorem c9_scheduler_no_event_lost_witness :
    (schedStep c9WitnessState (WEvent.change "a.ex")
        = { c9WitnessState with secondary := insertS "a.ex" c9WitnessState.secondary }
      ∧ "a.ex" ∈ (schedStep c9WitnessState (WEvent.change "a.ex")).secondary)
    ∧ (schedStep c9WitnessState WEvent.cycleDone).active = false
    ∧ (schedStep c9WitnessState WEvent.cycleDone).timerArmed = true
    ∧ (schedStep c9WitnessState WEvent.cycleDone).secondary = []
    ∧ (∀ q ∈ c9WitnessState.secondary,
        q ∈ (schedStep c9WitnessState WEvent.cycleDone).pending)
    ∧ "b.ex" ∈ tracked (runSched initSched
        [WEvent.change "b.ex", WEvent.timer, WEvent.cycleDone]) :=
  ⟨c9_scheduler_no_event_lost.1 c9WitnessState "a.ex" rfl,
   (c9_scheduler_no_event_lost.2.1 c9WitnessState).1,
   ((c9_scheduler_no_event_lost.2.1 c9WitnessState).2 (by decide)).1,
   ((c9_scheduler_no_event_lost.2.1 c9WitnessState).2 (by decide)).2.1,
   ((c9_scheduler_no_event_lost.2.1 c9WitnessState).2 (by decide)).2.2,
   c9_scheduler_no_event_lost.2.2
     [WEvent.change "b.ex", WEvent.timer, WEvent.cycleDone] "b.ex" (by decide)⟩

/-! ## Hybrid search engine (the MCP server handleSearch,
scripts/ripgrep-search.js, scripts/utils.js)

The index query, its ranking and its LIMIT k are modelled by taking the
ranked hit list as input and applying take k; the fallback subprocess
is modelled by its exit outcome: a spawn failure, or an exit code with
the emitted output lines. Exit code 0 means matches were found, 1 means
no matches, anything above 1 is an execution error. -/

/-- One row returned by the index (FTS) query. -/
structure FtsHit where
  id : String
  module : String
  name : String
  arity : Nat
  kind : String
  path : String
  start_line : Nat
  end_line : Option Nat
  signature : Option String
  score : Int
  deriving DecidableEq, Repr

/-- One merged search result. Fields absent on one side (kind and
signature for fallback results; id, name, arity varying) are options. -/
structure SearchResult where
  id : Option String
  module : String
  name : Option String
  arity : Option Nat
  kind : Option String
  path : String
  start_line : Nat
  end_line : Option Nat
  signature : Option String
  score : Int
  source : String
  context : Option String
  deriving DecidableEq, Repr

/-- Spread of an index row with the source tag, as in
ftsResults.map of the source code. -/
def tagFts (h : FtsHit) : SearchResult :=
  { id := some h.id, module := h.module, name := some h.name,
    arity := some h.arity, kind := some h.kind, path := h.path,
    start_line := h.start_line, end_line := h.end_line,
    signature := h.signature, score := h.score, source := "fts",
    context := none }

/-- The whitespace class used by the fallback heuristics: the common
members of the JavaScript backslash-s class (space, tab, newline,
carriage return, form feed, vertical tab, no-break space). -/
def jsWs (c : Char) : Bool :=
  c = ' ' || c = '\t' || c = '\n' || c = '\r' || c = '\x0b' || c = '\x0c' || c = ' '

/-- First character of the identifier class of the name regex:
lowercase letter or underscore. -/
def identStartChar (c : Char) : Bool :=
  ('a' ≤ c && c ≤ 'z') || c = '_'

/-- Later characters of the identifier class: also digits. -/
def identTailChar (c : Char) : Bool :=
  identStartChar c || ('0' ≤ c && c ≤ '9')

/-- A character of a word, for the keyword-token reading of the claim:
letter, digit or underscore. -/
def wordChar (c : Char) : Bool :=
  identTailChar c || ('A' ≤ c && c ≤ 'Z')

/-- The tail of the name regex after the def literal: one or more
whitespace characters, then the captured identifier. -/
def wsIdent : List Char → Option String
  | [] => none
  | c :: t =>
    if jsWs c then
      match t.dropWhile jsWs with
      | [] => none
      | d :: r =>
        if identStartChar d then some (String.mk (d :: r.takeWhile identTailChar))
        else none
    else none

/-- One attempt of the name regex at a fixed position: the literal def,
an optional p (tried greedily first, with backtracking), then
whitespace and the captured identifier. -/
def matchDefAt : List Char → Option String
  | c1 :: c2 :: c3 :: rest =>
    if c1 = 'd' ∧ c2 = 'e' ∧ c3 = 'f' then
      match rest with
      | c4 :: r1 =>
        if c4 = 'p' then
          match wsIdent r1 with
          | some n => some n
          | none => wsIdent rest
        else wsIdent rest
      | [] => wsIdent rest
    else none
  | _ => none

/-- The regex engine scanning start positions left to right. -/
def scanLine : List Char → Option String
  | [] => none
  | c :: t =>
    match matchDefAt (c :: t) with
    | some n => some n
    | none => scanLine t

/-- extractFunctionFromLine of scripts/utils.js: the first match of the
name regex over the line, or null. -/
def extractFunctionFromLine (line : String) : Option String :=
  scanLine line.toList

/-- Substring test, as the JavaScript includes method. -/
def containsList (n : List Char) : List Char → Bool
  | [] => n.isEmpty
  | c :: t => n.isPrefixOf (c :: t) || containsList n t

def containsSub (n h : String) : Bool := containsList n.toList h.toList

/-- calculateRelevanceScore of scripts/ripgrep-search.js, computed on
the untrimmed line text and the file path. -/
def calculateRelevanceScore (text path : String) : Int :=
  let s1 : Int := 100
  let s2 := if containsSub "def " text || containsSub "defp " text
      || containsSub "defmodule " text then s1 + 50 else s1
  let s3 := if containsSub "/lib/" path then s2 + 20 else s2
  let s4 := if containsSub "/test/" path then s3 - 10 else s3
  if 200 < text.length then s4 - 20 else s4

/-- JavaScript String.trim over the modelled whitespace class. -/
def jsTrim (s : String) : String :=
  String.mk (((s.toList.dropWhile jsWs).reverse.dropWhile jsWs).reverse)

/-- One line of the fallback subprocess output: a match event carrying
path, 1-based line number and raw line text, or anything else (other
event kinds, unparseable JSON, blank lines), which the parser skips. -/
inductive RgLine where
  | matched : String → Nat → String → RgLine
  | other : RgLine
  deriving DecidableEq, Repr

structure RgMatch where
  path : String
  line_number : Nat
  line_text : String
  score : Int
  deriving DecidableEq, Repr

/-- One parsed match: the stored text is trimmed, the score is computed
on the untrimmed text. -/
def toRgMatch : RgLine → Option RgMatch
  | RgLine.matched p n t => some ⟨p, n, jsTrim t, calculateRelevanceScore t p⟩
  | RgLine.other => none

/-- Stable insertion into a descending-by-score list: a new element
goes after every element with score at least its own. -/
def insertByScore (x : RgMatch) : List RgMatch → List RgMatch
  | [] => [x]
  | y :: t => if y.score < x.score then x :: y :: t else y :: insertByScore x t

/-- Stable sort descending by score. The JavaScript sort with the
comparator on score differences is stable, and a stable sort is
uniquely determined by the comparator, so this insertion sort yields
the same sequence. -/
def sortByScoreDesc : List RgMatch → List RgMatch
  | [] => []
  | x :: t => insertByScore x (sortByScoreDesc t)

/-- parseRipgrepOutput: keep the match events, sort by score descending
and cap at the limit. -/
def parseRipgrepOutput (lines : List RgLine) (limit : Nat) : List RgMatch :=
  (sortByScoreDesc (lines.filterMap toRgMatch)).take limit

/-- The observable outcome of the fallback subprocess: a spawn failure,
or an exit with a code and the emitted output lines. -/
inductive RgRun where
  | failed : RgRun
  | exited : Nat → List RgLine → RgRun
  deriving Repr

/-- What the caller of ripgrepSearch can observe: the returned promise
resolves or rejects, or no settlement ever happens because the process
dies first. The source registers handlers only on the close event of
the spawned child; it installs no handler for the error event, so a
spawn failure makes Node raise the unhandled error event as an
exception outside the promise, and the hosting server's
uncaughtException handler exits the process. -/
inductive RgPromise where
  | resolved : List RgMatch → RgPromise
  | rejected : RgPromise
  | crash : RgPromise
  deriving DecidableEq, Repr

/-- ripgrepSearch of scripts/ripgrep-search.js: a spawn failure is an
unhandled error event — not a rejection — that terminates the hosting
process; exit code 1 resolves with no matches; an exit code above 1
rejects; otherwise the output is parsed. -/
def ripgrepSearch (run : RgRun) (limit : Nat) : RgPromise :=
  match run with
  | RgRun.failed => RgPromise.crash
  | RgRun.exited code lines =>
    if code = 1 then RgPromise.resolved []
    else if 1 < code then RgPromise.rejected
    else RgPromise.resolved (parseRipgrepOutput lines limit)

/-- A best-effort module name from a file path: the regex
lib-slash-segment-slash-rest-dot-ex anchored at the end, matched at the
earliest possible start, then the segments camel-cased and joined with
dots. notSlash is the character class excluding the slash. -/
def notSlash (c : Char) : Bool := c ≠ '/'

/-- Strip the mandatory dot-ex suffix, requiring a non-empty stem. -/
def stripDotEx (s : List Char) : Option (List Char) :=
  match s.reverse with
  | 'x' :: 'e' :: '.' :: g2rev => if g2rev.isEmpty then none else some g2rev.reverse
  | _ => none

/-- One attempt of the path regex at a fixed position. -/
def matchLibAt (cs : List Char) : Option (List Char × List Char) :=
  match cs with
  | 'l' :: 'i' :: 'b' :: '/' :: rest =>
    match rest.dropWhile notSlash with
    | '/' :: s =>
      if (rest.takeWhile notSlash).isEmpty then none
      else (stripDotEx s).map (fun g2 => (rest.takeWhile notSlash, g2))
    | _ => none
  | _ => none

def findLibMatch : List Char → Option (List Char × List Char)
  | [] => none
  | c :: t =>
    match matchLibAt (c :: t) with
    | some r => some r
    | none => findLibMatch t

/-- JavaScript split on a separator character: empty pieces are kept
and the empty input gives one empty piece. -/
def splitChar (sep : Char) : List Char → List (List Char)
  | [] => [[]]
  | c :: t =>
    if c = sep then [] :: splitChar sep t
    else
      match splitChar sep t with
      | [] => [[c]]
      | w :: ws => (c :: w) :: ws

/-- Uppercase the first character of a word (ASCII, as the paths are). -/
def capitalizeWord : List Char → List Char
  | [] => []
  | c :: t => c.toUpper :: t

def joinPlain : List (List Char) → List Char
  | [] => []
  | w :: ws => w ++ joinPlain ws

def joinDots : List (List Char) → List Char
  | [] => []
  | [w] => w
  | w :: ws => w ++ '.' :: joinDots ws

/-- Camel-case one path segment: split on underscores, capitalize each
piece, join without separator. -/
def camelize (p : List Char) : List Char :=
  joinPlain ((splitChar '_' p).map capitalizeWord)

/-- extractModuleFromPath of scripts/utils.js. -/
def extractModuleFromPath (filePath : String) : String :=
  match findLibMatch filePath.toList with
  | none => "Unknown"
  | some (g1, g2) =>
    String.mk (joinDots ((g1 :: splitChar '/' g2).map camelize))

/-- One synthesized fallback result, as rgFormatted builds it. -/
def formatRg (m : RgMatch) : SearchResult :=
  { id := none, module := extractModuleFromPath m.path,
    name := extractFunctionFromLine m.line_text, arity := none, kind := none,
    path := m.path, start_line := m.line_number, end_line := some m.line_number,
    signature := none, score := m.score, source := "ripgrep",
    context := some m.line_text }

/-- The dedup key. The source keys on the string path-colon-line; since
the printed line number contains no colon, that string determines the
pair, so the pair is used directly. -/
def resKey (r : SearchResult) : String × Nat := (r.path, r.start_line)

def dedupeGo (seen : List (String × Nat)) : List SearchResult → List SearchResult
  | [] => []
  | r :: t =>
    if resKey r ∈ seen then dedupeGo seen t
    else r :: dedupeGo (resKey r :: seen) t

/-- dedupeResults of scripts/utils.js: first occurrence wins. -/
def dedupeResults (rs : List SearchResult) : List SearchResult := dedupeGo [] rs

/-- The minimum-results threshold of the authoritative server revision. -/
def minFtsResults : Nat := 2

/-- The effective k: params.k or-else 10, so an absent or zero k
becomes 10. -/
def effK : Option Nat → Nat
  | none => 10
  | some 0 => 10
  | some (n + 1) => n + 1

/-- handleSearch of the MCP server: run the index query limited to k; if
it returned at least minFtsResults results or the fallback is disabled,
return the tagged index results as-is; otherwise await the fallback. A
rejection is caught and degrades to the index results; a resolution is
merged, deduped and truncated. A crash of the fallback subprocess spawn
bypasses the try-catch entirely — the process exits before any response
is produced, modelled as none. The boolean records whether the fallback
subprocess was invoked. -/
def handleSearch (ftsRanked : List FtsHit) (rg : RgRun) (kOpt : Option Nat)
    (useRipgrep : Bool) : Option (List SearchResult) × Bool :=
  if minFtsResults ≤ (ftsRanked.take (effK kOpt)).length ∨ useRipgrep = false then
    (some ((ftsRanked.take (effK kOpt)).map tagFts), false)
  else
    match ripgrepSearch rg (effK kOpt) with
    | RgPromise.crash => (none, true)
    | RgPromise.rejected => (some ((ftsRanked.take (effK kOpt)).map tagFts), true)
    | RgPromise.resolved rgResults =>
      (some ((dedupeResults ((ftsRanked.take (effK kOpt)).map tagFts
          ++ rgResults.map formatRg)).take (effK kOpt)), true)

/-! ## Search claims -/

theorem dedupeGo_subset :
    ∀ (l : List SearchResult) (seen : List (String × Nat)) (r : SearchResult),
      r ∈ dedupeGo seen l → r ∈ l := by
  intro l
  induction l with
  | nil => intro seen r h; simp [dedupeGo] at h
  | cons x t ih =>
    intro seen r h
    by_cases hx : resKey x ∈ seen
    · exact List.mem_cons_of_mem x (ih seen r (by simpa [dedupeGo, hx] using h))
    · rcases List.mem_cons.mp (by simpa [dedupeGo, hx] using h) with rfl | h2
      · exact List.mem_cons_self _ _
      · exact List.mem_cons_of_mem x (ih (resKey x :: seen) r h2)

theorem dedupeGo_key_not_seen :
    ∀ (l : List SearchResult) (seen : List (String × Nat)) (r : SearchResult),
      r ∈ dedupeGo seen l → resKey r ∉ seen := by
  intro l
  induction l with
  | nil => intro seen r h; simp [dedupeGo] at h
  | cons x t ih =>
    intro seen r h
    by_cases hx : resKey x ∈ seen
    · exact ih seen r (by simpa [dedupeGo, hx] using h)
    · rcases List.mem_cons.mp (by simpa [dedupeGo, hx] using h) with rfl | h2
      · exact hx
      · intro hc
        exact ih (resKey x :: seen) r h2 (List.mem_cons_of_mem _ hc)

theorem effK_pos (kOpt : Option Nat) : 0 < effK kOpt := by
  cases kOpt with
  | none => decide
  | some n => cases n <;> simp [effK]

/-- C4. The fallback subprocess is invoked exactly when the index query
returned fewer than minFtsResults rows and the fallback is enabled;
otherwise the tagged index results are returned as-is with no fallback
invocation. -/
theorem c4_fallback_trigger_iff (ftsRanked : List FtsHit) (rg : RgRun)
    (kOpt : Option Nat) (useRipgrep : Bool) :
    ((handleSearch ftsRanked rg kOpt useRipgrep).2 = true
      ↔ (ftsRanked.take (effK kOpt)).length < minFtsResults ∧ useRipgrep = true)
    ∧ (¬ ((ftsRanked.take (effK kOpt)).length < minFtsResults ∧ useRipgrep = true) →
        (handleSearch ftsRanked rg kOpt useRipgrep).1
            = some ((ftsRanked.take (effK kOpt)).map tagFts)
        ∧ (handleSearch ftsRanked rg kOpt useRipgrep).2 = false) := by
  by_cases hc : minFtsResults ≤ (ftsRanked.take (effK kOpt)).length ∨ useRipgrep = false
  · have h1 : handleSearch ftsRanked rg kOpt useRipgrep
        = (some ((ftsRanked.take (effK kOpt)).map tagFts), false) := by
      unfold handleSearch
      rw [if_pos hc]
    have hnc : ¬ ((ftsRanked.take (effK kOpt)).length < minFtsResults
        ∧ useRipgrep = true) := by
      rcases hc with hc | hc
      · rintro ⟨hlt, _⟩
        exact absurd hc (Nat.not_le_of_lt hlt)
      · rintro ⟨_, hu⟩
        rw [hc] at hu
        exact Bool.false_ne_true hu
    rw [h1]
    exact ⟨⟨fun habs => (Bool.false_ne_true habs).elim, fun hcon => ((hnc hcon).elim)⟩,
      fun _ => ⟨rfl, rfl⟩⟩
  · have hcond : (ftsRanked.take (effK kOpt)).length < minFtsResults
        ∧ useRipgrep = true := by
      constructor
      · by_contra hle
        exact hc (Or.inl (Nat.le_of_not_lt hle))
      · cases hu : useRipgrep
        · exact absurd (Or.inr rfl) (hu ▸ hc)
        · rfl
    cases hrg : ripgrepSearch rg (effK kOpt) with
    | crash =>
      have h1 : handleSearch ftsRanked rg kOpt useRipgrep = (none, true) := by
        unfold handleSearch
        rw [if_neg hc, hrg]
      rw [h1]
      exact ⟨⟨fun _ => hcond, fun _ => rfl⟩, fun habs => absurd hcond habs⟩
    | rejected =>
      have h1 : handleSearch ftsRanked rg kOpt useRipgrep
          = (some ((ftsRanked.take (effK kOpt)).map tagFts), true) := by
        unfold handleSearch
        rw [if_neg hc, hrg]
      rw [h1]
      exact ⟨⟨fun _ => hcond, fun _ => rfl⟩, fun habs => absurd hcond habs⟩
    | resolved rgResults =>
      have h1 : handleSearch ftsRanked rg kOpt useRipgrep
          = (some ((dedupeResults ((ftsRanked.take (effK kOpt)).map tagFts
              ++ rgResults.map formatRg)).take (effK kOpt)), true) := by
        unfold handleSearch
        rw [if_neg hc, hrg]
      rw [h1]
      exact ⟨⟨fun _ => hcond, fun _ => rfl⟩, fun habs => absurd hcond habs⟩

/-- Closed witness for c4_fallback_trigger_iff at an empty index result
and a no-matches fallback exit. -/
theorem c4_fallback_trigger_iff_witness :
    ((handleSearch [] (RgRun.exited 1 []) none true).2 = true
      ↔ (([] : List FtsHit).take (effK none)).length < minFtsResults ∧ true = true)
    ∧ (¬ ((([] : List FtsHit).take (effK none)).length < minFtsResults ∧ true = true) →
        (handleSearch [] (RgRun.exited 1 []) none true).1
            = some ((([] : List FtsHit).take (effK none)).map tagFts)
        ∧ (handleSearch [] (RgRun.exited 1 []) none true).2 = false) :=
  c4_fallback_trigger_iff [] (RgRun.exited 1 []) none true

theorem list_eq_singleton_of_mem_of_short {α : Type} {x : α} {l : List α}
    (hx : x ∈ l) (hl : l.length < 2) : l = [x] := by
  cases l with
  | nil => simp at hx
  | cons a t =>
    cases t with
    | nil =>
      rcases List.mem_singleton.mp hx with rfl
      rfl
    | cons b u =>
      exfalso
      simp only [List.length_cons] at hl
      omega

/-- C5. When the fallback path runs and both the index and the fallback
produce a result at the same path and start line, the search returns a
result list in which exactly one result with that key survives and it
is the index-sourced one; the returned sequence has length at most the
effective k. -/
theorem c5_dedup_priority (ftsRanked : List FtsHit) (rg : RgRun) (kOpt : Option Nat)
    (rgResults : List RgMatch) (p : String) (s : Nat)
    (hlen : (ftsRanked.take (effK kOpt)).length < minFtsResults)
    (hrg : ripgrepSearch rg (effK kOpt) = RgPromise.resolved rgResults)
    (hfts : ∃ h ∈ ftsRanked.take (effK kOpt), h.path = p ∧ h.start_line = s)
    (_hdup : ∃ m ∈ rgResults, m.path = p ∧ m.line_number = s) :
    ∃ out, (handleSearch ftsRanked rg kOpt true).1 = some out
      ∧ out.countP (fun r => decide (r.path = p ∧ r.start_line = s)) = 1
      ∧ (∀ r ∈ out, r.path = p → r.start_line = s → r.source = "fts")
      ∧ out.length ≤ effK kOpt := by
  obtain ⟨h0, hmem, hp0, hs0⟩ := hfts
  have hsingle : ftsRanked.take (effK kOpt) = [h0] :=
    list_eq_singleton_of_mem_of_short hmem hlen
  have hc : ¬ (minFtsResults ≤ (ftsRanked.take (effK kOpt)).length ∨ (true : Bool) = false) := by
    rintro (hle | habs)
    · exact absurd hle (Nat.not_le_of_lt hlen)
    · exact Bool.noConfusion habs
  have h1 : (handleSearch ftsRanked rg kOpt true).1
      = some ((tagFts h0 :: dedupeGo [resKey (tagFts h0)] (rgResults.map formatRg)).take
          (effK kOpt)) := by
    unfold handleSearch
    rw [if_neg hc, hrg]
    simp [hsingle, dedupeResults, dedupeGo]
  obtain ⟨m, hm⟩ : ∃ m, effK kOpt = m + 1 :=
    ⟨effK kOpt - 1, (Nat.succ_pred_eq_of_pos (effK_pos kOpt)).symm⟩
  have hkey0 : resKey (tagFts h0) = (p, s) := by
    simp [resKey, tagFts, hp0, hs0]
  have h2 : (tagFts h0 :: dedupeGo [resKey (tagFts h0)] (rgResults.map formatRg)).take
      (effK kOpt)
      = tagFts h0 :: (dedupeGo [resKey (tagFts h0)] (rgResults.map formatRg)).take m := by
    rw [hm, List.take_succ_cons]
  have hrestkey : ∀ r ∈ (dedupeGo [resKey (tagFts h0)] (rgResults.map formatRg)).take m,
      ¬ (r.path = p ∧ r.start_line = s) := by
    intro r hr ⟨hrp, hrs⟩
    have hr2 := List.take_subset m _ hr
    have := dedupeGo_key_not_seen _ _ _ hr2
    apply this
    rw [hkey0]
    simp [resKey, hrp, hrs]
  refine ⟨(tagFts h0 :: dedupeGo [resKey (tagFts h0)] (rgResults.map formatRg)).take
      (effK kOpt), h1, ?_, ?_, ?_⟩
  · rw [h2, List.countP_cons]
    have hz : ((dedupeGo [resKey (tagFts h0)] (rgResults.map formatRg)).take m).countP
        (fun r => decide (r.path = p ∧ r.start_line = s)) = 0 := by
      rw [List.countP_eq_zero]
      intro r hr
      simpa using hrestkey r hr
    rw [hz]
    simp [tagFts, hp0, hs0]
  · intro r hr hrp hrs
    rw [h2] at hr
    rcases List.mem_cons.mp hr with rfl | hr2
    · rfl
    · exact absurd ⟨hrp, hrs⟩ (hrestkey r hr2)
  · rw [List.length_take]
    exact Nat.min_le_left _ _

/-- A concrete index hit for the C5 witness. -/
def c5Hit : FtsHit :=
  { id := "A", module := "M", name := "f", arity := 1, kind := "function",
    path := "lib/app/a.ex", start_line := 5, end_line := some 9,
    signature := some "f(x)", score := -3 }

/-- Closed witness for c5_dedup_priority: the index and the fallback
both report lib/app/a.ex line 5. -/
theorem c5_dedup_priority_witness :
    ∃ out, (handleSearch [c5Hit]
        (RgRun.exited 0 [RgLine.matched "lib/app/a.ex" 5 "def f(x) do"]) none true).1
        = some out
      ∧ out.countP (fun r => decide (r.path = "lib/app/a.ex" ∧ r.start_line = 5)) = 1
      ∧ (∀ r ∈ out, r.path = "lib/app/a.ex" → r.start_line = 5 → r.source = "fts")
      ∧ out.length ≤ effK none :=
  c5_dedup_priority [c5Hit] (RgRun.exited 0 [RgLine.matched "lib/app/a.ex" 5 "def f(x) do"])
    none (parseRipgrepOutput [RgLine.matched "lib/app/a.ex" 5 "def f(x) do"] (effK none))
    "lib/app/a.ex" 5 (by decide) (by rfl)
    ⟨c5Hit, by decide, rfl, rfl⟩
    ⟨⟨"lib/app/a.ex", 5, jsTrim "def f(x) do",
        calculateRelevanceScore "def f(x) do" "lib/app/a.ex"⟩, by decide, rfl, rfl⟩

/-- C6. The claim says a fallback that cannot run degrades the search to
the index-only results. The code contradicts that leg:
scripts/ripgrep-search.js installs no listener for the error event of
the spawned child, so a spawn failure is an unhandled error event, not
a promise rejection the try-catch could see, and the hosting server
exits through its uncaughtException handler before any response is
produced. The exit-code legs of the claim do hold in the code: an exit
code above 1 rejects and is caught, degrading to the tagged index
results, and exit code 1 resolves with an empty match set. -/
theorem c6_spawn_failure_crashes_process (ftsRanked : List FtsHit) (kOpt : Option Nat)
    (hlen : (ftsRanked.take (effK kOpt)).length < minFtsResults) :
    ripgrepSearch RgRun.failed (effK kOpt) = RgPromise.crash
    ∧ (handleSearch ftsRanked RgRun.failed kOpt true).1 = none
    ∧ (∀ (code : Nat) (lines : List RgLine), 1 < code →
        (handleSearch ftsRanked (RgRun.exited code lines) kOpt true).1
          = some ((ftsRanked.take (effK kOpt)).map tagFts))
    ∧ (∀ lines : List RgLine,
        ripgrepSearch (RgRun.exited 1 lines) (effK kOpt) = RgPromise.resolved []) := by
  have hc : ¬ (minFtsResults ≤ (ftsRanked.take (effK kOpt)).length ∨ (true : Bool) = false) := by
    rintro (hle | habs)
    · exact absurd hle (Nat.not_le_of_lt hlen)
    · exact Bool.noConfusion habs
  refine ⟨rfl, ?_, ?_, ?_⟩
  · unfold handleSearch
    rw [if_neg hc]
    rfl
  · intro code lines hcode
    have hrgerr : ripgrepSearch (RgRun.exited code lines) (effK kOpt)
        = RgPromise.rejected := by
      have h2 : ¬ code = 1 := by omega
      simp [ripgrepSearch, h2, hcode]
    unfold handleSearch
    rw [if_neg hc, hrgerr]
  · intro lines
    simp [ripgrepSearch]

/-- Closed witness for c6_spawn_failure_crashes_process at an empty
index result. -/
theorem c6_spawn_failure_crashes_process_witness :
    ripgrepSearch RgRun.failed (effK none) = RgPromise.crash
    ∧ (handleSearch [] RgRun.failed none true).1 = none
    ∧ (∀ (code : Nat) (lines : List RgLine), 1 < code →
        (handleSearch [] (RgRun.exited code lines) none true).1
          = some ((([] : List FtsHit).take (effK none)).map tagFts))
    ∧ (∀ lines : List RgLine,
        ripgrepSearch (RgRun.exited 1 lines) (effK none) = RgPromise.resolved []) :=
  c6_spawn_failure_crashes_process [] none (by decide)

/-! ## Fallback null fields and the name heuristic (claim C10) -/

/-- The keyword-token reading of the claim: the line contains an
occurrence of the definition pattern whose preceding character, if
any, is not a word character — that is, def or defp appears as a
keyword, followed by whitespace and a lowercase identifier. -/
def containsDefKeywordTokenAux : Option Char → List Char → Bool
  | _, [] => false
  | prev, c :: t =>
    ((match prev with
      | none => true
      | some b => !wordChar b) && (matchDefAt (c :: t)).isSome)
    || containsDefKeywordTokenAux (some c) t

def containsDefKeywordToken (line : String) : Bool :=
  containsDefKeywordTokenAux none line.toList

/-- The definition pattern of the name regex, stated declaratively: the
literal def, an optional p, one or more whitespace characters, then an
identifier start character. No word boundary is required before the
literal. -/
def DefPatternAt (cs : List Char) : Prop :=
  ∃ (popt ws : List Char) (c : Char) (t : List Char),
    (popt = [] ∨ popt = ['p'])
    ∧ ws ≠ [] ∧ (∀ w ∈ ws, jsWs w = true)
    ∧ identStartChar c = true
    ∧ cs = 'd' :: 'e' :: 'f' :: (popt ++ ws ++ c :: t)

/-- The line contains the definition pattern somewhere. -/
def ContainsDefPattern (line : String) : Prop :=
  ∃ pre suf, line.toList = pre ++ suf ∧ DefPatternAt suf

theorem wsIdent_some_decomp {r : List Char} {n : String} (h : wsIdent r = some n) :
    ∃ ws c t, r = ws ++ c :: t ∧ ws ≠ [] ∧ (∀ w ∈ ws, jsWs w = true)
      ∧ identStartChar c = true := by
  cases r with
  | nil => simp [wsIdent] at h
  | cons a t0 =>
    by_cases ha : jsWs a = true
    · cases hd : t0.dropWhile jsWs with
      | nil => simp [wsIdent, ha, hd] at h
      | cons d r2 =>
        by_cases hid : identStartChar d = true
        · refine ⟨a :: t0.takeWhile jsWs, d, r2, ?_, by simp, ?_, hid⟩
          · have htd := List.takeWhile_append_dropWhile (p := jsWs) (l := t0)
            rw [hd] at htd
            rw [List.cons_append, htd]
          · intro w hw
            rcases List.mem_cons.mp hw with rfl | hw
            · exact ha
            · exact List.mem_takeWhile_imp hw
        · simp [wsIdent, ha, hd, hid] at h
    · simp [wsIdent, ha] at h

theorem matchDefAt_some_pattern :
    ∀ {cs : List Char} {n : String}, matchDefAt cs = some n → DefPatternAt cs := by
  intro cs n h
  rcases cs with _ | ⟨c1, cs1⟩
  · simp [matchDefAt] at h
  rcases cs1 with _ | ⟨c2, cs2⟩
  · simp [matchDefAt] at h
  rcases cs2 with _ | ⟨c3, rest⟩
  · simp [matchDefAt] at h
  by_cases hdef : c1 = 'd' ∧ c2 = 'e' ∧ c3 = 'f'
  · obtain ⟨rfl, rfl, rfl⟩ := hdef
    rcases rest with _ | ⟨c4, r1⟩
    · have h2 : wsIdent [] = some n := by simpa [matchDefAt] using h
      simp [wsIdent] at h2
    · by_cases hp : c4 = 'p'
      · subst hp
        cases hw : wsIdent r1 with
        | some n2 =>
          obtain ⟨ws, c, t, hr, hwsne, hwsall, hc⟩ := wsIdent_some_decomp hw
          exact ⟨['p'], ws, c, t, Or.inr rfl, hwsne, hwsall, hc, by simp [hr]⟩
        | none =>
          have h2 : wsIdent ('p' :: r1) = some n := by
            simpa [matchDefAt, hw] using h
          rw [show wsIdent ('p' :: r1) = none from rfl] at h2
          exact Option.noConfusion h2
      · have h2 : wsIdent (c4 :: r1) = some n := by
          simpa [matchDefAt, hp] using h
        obtain ⟨ws, c, t, hr, hwsne, hwsall, hc⟩ := wsIdent_some_decomp h2
        exact ⟨[], ws, c, t, Or.inl rfl, hwsne, hwsall, hc, by simp [hr]⟩
  · simp [matchDefAt, hdef] at h

theorem scanLine_some_contains :
    ∀ (cs : List Char) (n : String), scanLine cs = some n →
      ∃ pre suf, cs = pre ++ suf ∧ DefPatternAt suf := by
  intro cs
  induction cs with
  | nil => intro n h; simp [scanLine] at h
  | cons c t ih =>
    intro n h
    cases hm : matchDefAt (c :: t) with
    | some n0 => exact ⟨[], c :: t, rfl, matchDefAt_some_pattern hm⟩
    | none =>
      have h2 : scanLine t = some n := by simpa [scanLine, hm] using h
      obtain ⟨pre, suf, ht, hp⟩ := ih n h2
      exact ⟨c :: pre, suf, by simp [ht], hp⟩

/-- The concrete fallback match of the C10 counterexample: the matched
line reads undef foo and contains no def or defp keyword, yet the name
regex, having no word boundary, captures foo. -/
def c10RgMatch : RgMatch :=
  { path := "lib/app/core.ex", line_number := 3, line_text := "undef foo", score := 120 }

/-- C10 (counterexample). The claim says the synthesized name is null
whenever the matched line does not contain a def or defp keyword
followed by a lowercase identifier. The line undef foo contains no such
keyword — its only def occurrence sits inside the word undef — yet the
synthesized result carries the name foo. -/
theorem c10_counterexample :
    containsDefKeywordToken "undef foo" = false
    ∧ (formatRg c10RgMatch).name = some "foo" := by
  exact ⟨by decide, by decide⟩

/-- C10 (amended). Every fallback-synthesized result has null id, null
arity and the ripgrep source tag, and its name is null whenever the
matched line does not contain the substring def — optionally followed
by p and with no word-boundary requirement — followed by whitespace
and a lowercase identifier. -/
theorem c10_fallback_null_fields (m : RgMatch) :
    (formatRg m).id = none
    ∧ (formatRg m).arity = none
    ∧ (formatRg m).source = "ripgrep"
    ∧ (¬ ContainsDefPattern m.line_text → (formatRg m).name = none) := by
  refine ⟨rfl, rfl, rfl, fun hnc => ?_⟩
  show extractFunctionFromLine m.line_text = none
  cases he : extractFunctionFromLine m.line_text with
  | none => rfl
  | some n =>
    exact absurd (scanLine_some_contains _ n he) hnc

/-- A fallback match whose line has no def occurrence at all. -/
def c10PlainMatch : RgMatch :=
  { path := "lib/app/core.ex", line_number := 7, line_text := "hello foo", score := 120 }

/-- Closed witness for c10_fallback_null_fields at a line with no def
occurrence: the pattern hypothesis is discharged because the line does
not even contain the character d. -/
theorem c10_fallback_null_fields_witness :
    (formatRg c10PlainMatch).id = none
    ∧ (formatRg c10PlainMatch).arity = none
    ∧ (formatRg c10PlainMatch).source = "ripgrep"
    ∧ (formatRg c10PlainMatch).name = none :=
  ⟨(c10_fallback_null_fields c10PlainMatch).1,
   (c10_fallback_null_fields c10PlainMatch).2.1,
   (c10_fallback_null_fields c10PlainMatch).2.2.1,
   (c10_fallback_null_fields c10PlainMatch).2.2.2 (by
     rintro ⟨pre, suf, heq, popt, ws, c, t, _, _, _, _, hsuf⟩
     have hd : 'd' ∈ c10PlainMatch.line_text.toList := by
       rw [heq]
       refine List.mem_append.mpr (Or.inr ?_)
       rw [hsuf]
       exact List.mem_cons_self _ _
     revert hd
     decide)⟩

end ElixirContext
